import Mathlib

/-!
Verification of the core logic of `src/canvec.py`.

The file shallowly embeds the two core components of the program:

* `ShapefileList` (class at canvec.py lines 59-202): a batched, lazy
  iterator over shapefiles contained in a list of zip archives, with
  deferred deletion of extracted temporary files.  Archives are modelled
  as a list of entry names together with an `ok` flag (`ok = false`
  models an archive that `ZipFile` fails to open).  The filesystem of
  extracted temp files is modelled as a list of paths (`disk`).

* `CanvecExtractor._createSql` (lines 300-363): the rotating export
  loop.  The external converter (`shp2pgsql`) is abstracted by its
  observable behaviour per invocation: either the subprocess fails to
  launch (`none`, the `Popen` call raises) or it runs and exits with
  some code having written some number of bytes (`some (code, bytes)`).
-/

namespace Canvec

/-- Embeds `re.compile('\.shp$')` applied via `search` (line 121/138):
an entry is a shapefile when its name ends in `.shp`, i.e. the reversed
character list starts with `p`, `h`, `s`, `.`. -/
def isShp (e : String) : Bool :=
  e.data.reverse.take 4 == ['p', 'h', 's', '.']

/-- A zip archive as seen by `_loadShpList`: `ok = false` models an
archive for which `ZipFile(f)` raises (line 140: caught, logged,
skipped); `entries` is `z.namelist()` (line 129). -/
structure Archive where
  ok : Bool
  entries : List String
deriving DecidableEq

/-- `z.extract(e, tmpDir)` (line 134): materializes the entry under the
temp directory; re-extracting an existing name overwrites it, so the
disk is kept duplicate-free. -/
def insertFile (e : String) (d : List String) : List String :=
  if d.contains e then d else d ++ [e]

/-- `Base._deleteFile` (lines 36-46): removes a path, swallowing errors
(removing an absent path is a no-op). -/
def deleteFile (e : String) (d : List String) : List String :=
  d.filter (fun x => x != e)

/-- A `for f in files: self._deleteFile(...)` loop (lines 162-163 and
194-195). -/
def deleteFiles (files : List String) (d : List String) : List String :=
  files.foldl (fun acc f => deleteFile f acc) d

/-- The entries of an archive matched (and hence extracted) by the scan
loop of `_loadShpList` (lines 132-136): all entries matching the search
pattern when the archive opens, nothing when it is corrupt. -/
def archMatched (pat : String → Bool) (a : Archive) : List String :=
  if a.ok then a.entries.filter pat else []

/-- The matched entries that are themselves shapefiles (lines 138-139). -/
def archShp (pat : String → Bool) (a : Archive) : List String :=
  (archMatched pat a).filter isShp

/-- Result of one batch scan (`_loadShpList`): the shapefile list, the
list of all extracted files, the number of archives consumed, and the
resulting disk contents. -/
structure ScanRes where
  shp : List String
  tmp : List String
  n : Nat
  disk : List String
deriving DecidableEq

/-- The archive loop of `_loadShpList` (lines 124-151), starting from the
cursor: scan each archive in turn, extracting every matching entry and
recording shapefiles; after each archive, stop if the shapefile list has
reached the batch size (`len(shpFiles) >= self.batchSize`, line 150). -/
def scanBatch (pat : String → Bool) (bs : Nat) :
    List Archive → List String → List String → List String → ScanRes
  | [], shp, tmp, disk => ⟨shp, tmp, 0, disk⟩
  | a :: rest, shp, tmp, disk =>
    let matched := archMatched pat a
    let disk2 := matched.foldl (fun d e => insertFile e d) disk
    let tmp2 := tmp ++ matched
    let shp2 := shp ++ matched.filter isShp
    if bs ≤ shp2.length then ⟨shp2, tmp2, 1, disk2⟩
    else
      let r := scanBatch pat bs rest shp2 tmp2 disk2
      ⟨r.shp, r.tmp, r.n + 1, r.disk⟩

/-- The state of a `ShapefileList` object together with the extracted
temp files on disk.  `tmpFiles = none` models the attribute not yet
existing (it is first assigned in `_loadShpList`, line 154). -/
structure SL where
  pattern : String → Bool
  folder : List Archive
  batchSize : Nat
  zipList : Option (List Archive)
  zipIndex : Nat
  shpList : Option (List String)
  tmpFiles : Option (List String)
  cleanupFiles : List String
  triggerCleanup : Bool
  currentShp : Option String
  disk : List String

/-- `ShapefileList.__init__` (lines 67-90); directory validation is
external to the core.  `folder` stands for the archives that
`_loadZipList`'s directory walk will discover. -/
def mkShapefileList (pat : String → Bool) (folder : List Archive) (bs : Nat) : SL :=
  ⟨pat, folder, bs, none, 0, none, none, [], false, none, []⟩

/-- `_loadZipList` (lines 92-112): records the archive list and resets
the cursor. -/
def loadZipList (s : SL) : SL :=
  { s with zipList := some s.folder, zipIndex := 0 }

/-- `_loadShpList` (lines 114-154): scans from the cursor, stores the
batch, the extracted-file list and the advanced cursor. -/
def loadShpList (s : SL) : SL :=
  let zips := s.zipList.getD []
  let r := scanBatch s.pattern s.batchSize (zips.drop s.zipIndex) [] [] s.disk
  { s with shpList := some r.shp, tmpFiles := some r.tmp,
           zipIndex := s.zipIndex + r.n, disk := r.disk }

/-- `hasNext` lines 181-182: `if not self.zipList: self._loadZipList()`
(`None` and the empty list are both falsy). -/
def ensureZipList (s : SL) : SL :=
  match s.zipList with
  | none => loadZipList s
  | some [] => loadZipList s
  | some (_ :: _) => s

/-- `hasNext` lines 183-184: refill the batch when it is absent or
empty. -/
def ensureShpList (s : SL) : SL :=
  match s.shpList with
  | none => loadShpList s
  | some [] => loadShpList s
  | some (_ :: _) => s

/-- `ShapefileList.hasNext` (lines 177-187). -/
def hasNext (s : SL) : Bool × SL :=
  let s2 := ensureShpList (ensureZipList s)
  match s2.shpList with
  | some (_ :: _) => (true, s2)
  | _ => (false, s2)

/-- `next` lines 160-166: if deferred deletion is armed, delete the
recorded files and disarm. -/
def delPhase (s : SL) : SL :=
  if s.triggerCleanup then
    { s with disk := deleteFiles s.cleanupFiles s.disk, triggerCleanup := false }
  else s

/-- `next` lines 167-169: when the current batch is down to exactly one
shapefile, arm deferred deletion of the batch's extracted files. -/
def armPhase (s : SL) : SL :=
  match s.shpList with
  | some l =>
    if l.length = 1 then
      { s with triggerCleanup := true, cleanupFiles := s.tmpFiles.getD [] }
    else s
  | none => s

/-- `ShapefileList.next` (lines 156-175): deferred deletion, arming,
`hasNext`, then pop the head of the batch (`self.shpList.pop(0)`).
Returns `none` where the Python code returns `False`. -/
def next (s : SL) : Option String × SL :=
  let s2 := armPhase (delPhase s)
  match hasNext s2 with
  | (true, s3) =>
    match s3.shpList with
    | some (x :: xs) => (some x, { s3 with shpList := some xs, currentShp := some x })
    | _ => (none, s3)
  | (false, s3) => (none, s3)

/-- `ShapefileList.cleanup` (lines 189-199): best-effort deletion of the
currently tracked extracted files (none are tracked before the first
batch load), then drop the archive list and the batch. -/
def cleanup (s : SL) : SL :=
  let d := match s.tmpFiles with
    | none => s.disk
    | some l => deleteFiles l s.disk
  { s with disk := d, zipList := none, shpList := none }

/-- The sequence of shapefiles produced by repeatedly calling `next`
until it returns `False`, with enough fuel. -/
def drain : Nat → SL → List String
  | 0, _ => []
  | fuel + 1, s =>
    match next s with
    | (none, _) => []
    | (some x, s2) => x :: drain fuel s2

/-- The two consumer-visible operations of the iterator. -/
inductive SLOp
  | callNext
  | callHasNext
deriving DecidableEq

/-- Execute one operation for its state effect. -/
def stepOp : SLOp → SL → SL
  | .callNext, s => (next s).2
  | .callHasNext, s => (hasNext s).2

/-- Execute a sequence of operations. -/
def runOps : List SLOp → SL → SL
  | [], s => s
  | o :: os, s => runOps os (stepOp o s)

/-- Modelled from the spec: the sequence the Extractor yields with an
unbounded batch size — every matching shapefile of every archive, in
archive order, each archive's matches in entry order. -/
def specAllDatasets (pat : String → Bool) (folder : List Archive) : List String :=
  folder.flatMap (archShp pat)

/-! ### Basic lemmas about the file-system operations -/

theorem mem_insertFile {x e : String} {d : List String} :
    x ∈ insertFile e d ↔ x ∈ d ∨ x = e := by
  unfold insertFile
  split
  · rename_i h
    constructor
    · exact Or.inl
    · rintro (hx | rfl)
      · exact hx
      · exact List.mem_of_elem_eq_true h
  · simp

theorem mem_foldl_insertFile {x : String} {l d : List String} :
    x ∈ l.foldl (fun d e => insertFile e d) d ↔ x ∈ d ∨ x ∈ l := by
  induction l generalizing d with
  | nil => simp
  | cons e l ih =>
    simp only [List.foldl_cons, ih, mem_insertFile, List.mem_cons]
    tauto

theorem mem_deleteFile {x e : String} {d : List String} :
    x ∈ deleteFile e d ↔ x ∈ d ∧ x ≠ e := by
  simp [deleteFile, List.mem_filter]

theorem mem_deleteFiles {x : String} {l d : List String} :
    x ∈ deleteFiles l d ↔ x ∈ d ∧ x ∉ l := by
  induction l generalizing d with
  | nil => simp [deleteFiles]
  | cons f l ih =>
    simp only [deleteFiles, List.foldl_cons] at ih ⊢
    rw [ih, mem_deleteFile, List.mem_cons]
    tauto

theorem deleteFiles_filter (l d : List String) :
    deleteFiles l d = d.filter (fun x => !(l.contains x)) := by
  induction l generalizing d with
  | nil =>
    simp only [deleteFiles, List.foldl_nil]
    rw [List.filter_congr (q := fun _ => true) (by intro a _; simp),
      List.filter_true]
  | cons f l ih =>
    simp only [deleteFiles, List.foldl_cons] at ih ⊢
    rw [ih]
    unfold deleteFile
    rw [List.filter_filter]
    apply List.filter_congr
    intro a _
    simp only [List.contains_cons, Bool.not_or, bne]
    rw [Bool.and_comm]

/-! ### Lemmas about the batch-scan loop (`_loadShpList`) -/

theorem scanBatch_shp (pat : String → Bool) (bs : Nat) :
    ∀ (zips : List Archive) (shp tmp disk : List String),
      (scanBatch pat bs zips shp tmp disk).shp
        = shp ++ (zips.take (scanBatch pat bs zips shp tmp disk).n).flatMap (archShp pat) := by
  intro zips
  induction zips with
  | nil => intro shp tmp disk; simp [scanBatch]
  | cons a rest ih =>
    intro shp tmp disk
    simp only [scanBatch]
    split
    · simp [archShp]
    · simp only []
      rw [ih]
      simp [archShp, List.take_succ_cons, List.flatMap_cons, List.append_assoc]

theorem scanBatch_tmp (pat : String → Bool) (bs : Nat) :
    ∀ (zips : List Archive) (shp tmp disk : List String),
      (scanBatch pat bs zips shp tmp disk).tmp
        = tmp ++ (zips.take (scanBatch pat bs zips shp tmp disk).n).flatMap (archMatched pat) := by
  intro zips
  induction zips with
  | nil => intro shp tmp disk; simp [scanBatch]
  | cons a rest ih =>
    intro shp tmp disk
    simp only [scanBatch]
    split
    · simp
    · simp only []
      rw [ih]
      simp [List.take_succ_cons, List.flatMap_cons, List.append_assoc]

theorem scanBatch_n_le (pat : String → Bool) (bs : Nat) :
    ∀ (zips : List Archive) (shp tmp disk : List String),
      (scanBatch pat bs zips shp tmp disk).n ≤ zips.length := by
  intro zips
  induction zips with
  | nil => intro shp tmp disk; simp [scanBatch]
  | cons a rest ih =>
    intro shp tmp disk
    simp only [scanBatch]
    split
    · simp
    · simpa using ih _ _ _

theorem scanBatch_stop (pat : String → Bool) (bs : Nat) :
    ∀ (zips : List Archive) (shp tmp disk : List String),
      (scanBatch pat bs zips shp tmp disk).n = zips.length
        ∨ bs ≤ (scanBatch pat bs zips shp tmp disk).shp.length := by
  intro zips
  induction zips with
  | nil => intro shp tmp disk; left; simp [scanBatch]
  | cons a rest ih =>
    intro shp tmp disk
    simp only [scanBatch]
    split
    · right; rename_i h; simpa using h
    · rcases ih (shp ++ (archMatched pat a).filter isShp)
        (tmp ++ archMatched pat a)
        ((archMatched pat a).foldl (fun d e => insertFile e d) disk) with h | h
      · left; simpa using h
      · right; simpa using h

theorem scanBatch_min (pat : String → Bool) (bs : Nat) :
    ∀ (zips : List Archive) (shp tmp disk : List String) (m : Nat),
      m + 1 < (scanBatch pat bs zips shp tmp disk).n →
      (shp ++ (zips.take (m + 1)).flatMap (archShp pat)).length < bs := by
  intro zips
  induction zips with
  | nil =>
    intro shp tmp disk m hm
    simp [scanBatch] at hm
  | cons a rest ih =>
    intro shp tmp disk m hm
    simp only [scanBatch] at hm ⊢
    split at hm
    · dsimp only at hm; omega
    · rename_i hlt
      simp only [] at hm
      rcases m with _ | m
      · rw [Nat.not_le] at hlt
        simpa [archShp] using hlt
      · have := ih (shp ++ (archMatched pat a).filter isShp)
          (tmp ++ archMatched pat a)
          ((archMatched pat a).foldl (fun d e => insertFile e d) disk) m (by omega)
        simpa [archShp, List.take_succ_cons, List.flatMap_cons, List.append_assoc] using this

theorem scanBatch_disk_mem (pat : String → Bool) (bs : Nat) :
    ∀ (zips : List Archive) (shp tmp disk : List String) (x : String),
      x ∈ (scanBatch pat bs zips shp tmp disk).disk →
      x ∈ disk ∨ x ∈ (scanBatch pat bs zips shp tmp disk).tmp := by
  intro zips
  induction zips with
  | nil => intro shp tmp disk x hx; exact Or.inl (by simpa [scanBatch] using hx)
  | cons a rest ih =>
    intro shp tmp disk x hx
    simp only [scanBatch] at hx ⊢
    split at hx <;> split
    · rename_i h h2
      simp only [] at hx
      rcases mem_foldl_insertFile.mp hx with h3 | h3
      · exact Or.inl h3
      · exact Or.inr (by simp [h3])
    · omega
    · omega
    · rename_i h h2
      simp only [] at hx ⊢
      rcases ih _ _ _ _ hx with h3 | h3
      · rcases mem_foldl_insertFile.mp h3 with h4 | h4
        · exact Or.inl h4
        · right
          rw [scanBatch_tmp]
          exact List.mem_append.mpr (Or.inl (by simp [h4]))
      · exact Or.inr h3

/-! ### The rotating export controller (`CanvecExtractor._createSql`) -/

/-- `self.outFile.rfind('.')` (lines 305-306): the index of the last
`'.'` in the template, `none` when Python would return `-1`. -/
def rfindDot : List Char → Option Nat
  | [] => none
  | c :: rest =>
    match rfindDot rest with
    | some k => some (k + 1)
    | none => if c = '.' then some 0 else none

/-- `outName = self.outFile[0:self.outFile.rfind('.')]` (line 305);
with no dot, `rfind` is `-1` and the slice drops the final character. -/
def outNameOf (f : List Char) : List Char :=
  match rfindDot f with
  | some k => f.take k
  | none => f.take (f.length - 1)

/-- `outExt = self.outFile[self.outFile.rfind('.') + 1:]` (line 306);
with no dot this is `self.outFile[0:]`, the whole template. -/
def outExtOf (f : List Char) : List Char :=
  match rfindDot f with
  | some k => f.drop (k + 1)
  | none => f

/-- `outFile = "{0}.{1}.{2}".format(outName, fileNum, outExt)`
(line 324). -/
def segFileName (f : List Char) (n : Nat) : List Char :=
  outNameOf f ++ '.' :: (Nat.repr n).data ++ '.' :: outExtOf f

/-- `maxSqlSize = 100 * 1024 * 1024` (line 308). -/
def maxSqlSize : Nat := 100 * 1024 * 1024

/-- One converter invocation as observed by the loop: the flags passed
(`create` for `-d` vs `-a`, line 336-339; `index` for `-I`, lines
341-342), the segment number written to, the segment file's size after
the invocation (`os.path.getsize(outFile)`, line 356) and the bytes the
invocation itself wrote. -/
structure Inv where
  create : Bool
  index : Bool
  fileNum : Nat
  sizeAfter : Nat
  bytes : Nat
deriving DecidableEq

/-- How a run can abort: the `'gz'` template check raising (line 327),
or `subprocess.Popen` raising because the converter cannot be launched
(line 352).  Both exceptions propagate out of `_createSql`. -/
inductive CtrlErr
  | zipUnsupported
  | launchFailure
deriving DecidableEq

/-- The `while True` loop of `_createSql` (lines 315-363), driven by the
sequence of datasets the extractor yields.  Each element of the input
list is one dataset's converter outcome: `none` when `Popen` fails to
launch, `some (code, bytes)` when the converter runs, exits with `code`
(the value of `p.wait()`, which the code never reads) and writes `bytes`
to the segment file.  On an abort the error carries the invocations
completed before it. -/
def createSqlLoop (outExt : List Char) (maxSize : Nat) :
    Bool → Bool → Nat → Nat → List (Option (Int × Nat)) →
    Except (CtrlErr × List Inv) (List Inv)
  | _, _, _, _, [] => .ok []
  | create, append, fileNum, segSize, item :: rest =>
    -- line 321: `end` is set iff the extractor has nothing after this
    let isEnd := rest.isEmpty
    -- lines 325-330: on a fresh segment, a 'gz' extension raises
    if !append && outExt == ['g', 'z'] then .error (.zipUnsupported, [])
    else
      match item with
      | none => .error (.launchFailure, [])          -- Popen raises
      | some (_code, w) =>                           -- p.wait() ignored
        let sz := if append then segSize + w else w  -- fresh 'wb' open truncates
        let inv : Inv := ⟨create, isEnd, fileNum, sz, w⟩
        -- lines 356-361: rotate when the segment exceeds the threshold
        let fileNum2 := if maxSize < sz then fileNum + 1 else fileNum
        let append2 := if maxSize < sz then false else true
        match createSqlLoop outExt maxSize false append2 fileNum2 sz rest with
        | .ok l => .ok (inv :: l)
        | .error (e, l) => .error (e, inv :: l)

/-- `_createSql` (lines 300-363): initial state `fileNum = 1`,
`append = False`, `create = True`. -/
def createSql (outFile : List Char) (items : List (Option (Int × Nat))) :
    Except (CtrlErr × List Inv) (List Inv) :=
  createSqlLoop (outExtOf outFile) maxSqlSize true false 1 0 items

/-- The rotation discipline along a run: each invocation goes to the
expected segment, its size accumulates when appending and restarts after
a rotation, and the segment number advances exactly when the previous
invocation left the segment above the threshold. -/
def rotOk (maxSize : Nat) : Bool → Nat → Nat → List Inv → Bool
  | _, _, _, [] => true
  | append, fileNum, segSize, i :: rest =>
    let sz := if append then segSize + i.bytes else i.bytes
    (i.fileNum == fileNum) && (i.sizeAfter == sz) &&
      (if maxSize < sz then rotOk maxSize false (fileNum + 1) sz rest
       else rotOk maxSize true fileNum sz rest)

/-! ### Working-directory discipline around one invocation -/

/-- Lines 350-354 of `_createSql`:
```
curDir = os.path.abspath(os.curdir)
os.chdir(self.tmpDir)
p = subprocess.Popen(args, stdout=h)
p.wait()
os.chdir(curDir)
```
Given the working directory before the invocation, returns the working
directory afterwards: `.ok` when `Popen` launches (whatever the child's
exit status, which is not consulted), `.error` carrying the final
working directory when `Popen` raises — there is no `try/finally`, so
the restoring `chdir` does not run. -/
def invokeInTmp (tmpDir : String) (launchOk : Bool) (cwd : String) :
    Except String String :=
  let curDir := cwd
  let duringRun := tmpDir
  if launchOk then .ok curDir else .error duringRun

/-! ### Lemmas about the export loop -/

theorem createSqlLoop_ok (ext : List Char) (maxSize : Nat) (hgz : ext ≠ ['g', 'z']) :
    ∀ (ws : List (Int × Nat)) (c ap : Bool) (f sz : Nat),
      ∃ l, createSqlLoop ext maxSize c ap f sz (ws.map some) = .ok l ∧
        l.length = ws.length ∧
        l.map (fun i => i.create)
          = (if ws.isEmpty then [] else c :: List.replicate (ws.length - 1) false) ∧
        l.map (fun i => i.index)
          = (if ws.isEmpty then [] else List.replicate (ws.length - 1) false ++ [true]) := by
  intro ws
  induction ws with
  | nil => intro c ap f sz; exact ⟨[], rfl, rfl, rfl, rfl⟩
  | cons cw rest ih =>
    intro c ap f sz
    obtain ⟨code, w⟩ := cw
    have hbeq : (ext == ['g', 'z']) = false := beq_eq_false_iff_ne.mpr hgz
    simp only [List.map_cons, createSqlLoop, hbeq, Bool.and_false, Bool.false_eq_true,
      if_false]
    obtain ⟨l, hl, hlen, hc, hi⟩ := ih false
      (if maxSize < (if ap then sz + w else w) then false else true)
      (if maxSize < (if ap then sz + w else w) then f + 1 else f)
      (if ap then sz + w else w)
    rw [hl]
    refine ⟨_, rfl, by simp [hlen], ?_, ?_⟩
    · cases rest with
      | nil => simp at hc ⊢; simpa using hc
      | cons r rest2 =>
        simp only [List.map_cons, hc]
        simp [List.replicate_succ]
    · cases rest with
      | nil => simp at hi ⊢; simpa using hi
      | cons r rest2 =>
        simp only [List.map_cons, hi]
        simp [List.replicate_succ]

theorem createSqlLoop_rotOk (ext : List Char) (maxSize : Nat) :
    ∀ (ws : List (Int × Nat)) (c ap : Bool) (f sz : Nat) (l : List Inv),
      createSqlLoop ext maxSize c ap f sz (ws.map some) = .ok l →
      rotOk maxSize ap f sz l = true := by
  intro ws
  induction ws with
  | nil =>
    intro c ap f sz l hl
    cases hl
    rfl
  | cons cw rest ih =>
    intro c ap f sz l hl
    obtain ⟨code, w⟩ := cw
    simp only [List.map_cons, createSqlLoop] at hl
    split at hl
    · cases hl
    · cases hrec : createSqlLoop ext maxSize false
        (if maxSize < (if ap then sz + w else w) then false else true)
        (if maxSize < (if ap then sz + w else w) then f + 1 else f)
        (if ap then sz + w else w) (rest.map some) with
      | error e => rw [hrec] at hl; cases hl
      | ok l2 =>
        rw [hrec] at hl
        cases hl
        have htail := ih false _ _ _ l2 hrec
        simp only [rotOk]
        by_cases hro : maxSize < (if ap then sz + w else w)
        · simp only [hro, if_true] at htail ⊢
          simp [htail]
        · simp only [hro, if_false] at htail ⊢
          simp [htail]

theorem createSqlLoop_launch (ext : List Char) (maxSize : Nat) (hgz : ext ≠ ['g', 'z']) :
    ∀ (pre : List (Int × Nat)) (rest : List (Option (Int × Nat))) (c ap : Bool) (f sz : Nat),
      ∃ l, createSqlLoop ext maxSize c ap f sz (pre.map some ++ none :: rest)
          = .error (.launchFailure, l) ∧ l.length = pre.length := by
  intro pre
  induction pre with
  | nil =>
    intro rest c ap f sz
    have hbeq : (ext == ['g', 'z']) = false := beq_eq_false_iff_ne.mpr hgz
    exact ⟨[], by simp [createSqlLoop, hbeq], rfl⟩
  | cons cw pre2 ih =>
    intro rest c ap f sz
    obtain ⟨code, w⟩ := cw
    have hbeq : (ext == ['g', 'z']) = false := beq_eq_false_iff_ne.mpr hgz
    simp only [List.map_cons, List.cons_append, createSqlLoop, hbeq, Bool.and_false,
      Bool.false_eq_true, if_false, List.append_eq]
    obtain ⟨l, hl, hlen⟩ := ih rest false
      (if maxSize < (if ap then sz + w else w) then false else true)
      (if maxSize < (if ap then sz + w else w) then f + 1 else f)
      (if ap then sz + w else w)
    rw [hl]
    exact ⟨_, rfl, by simp [hlen]⟩

theorem createSqlLoop_code_irrelevant (ext : List Char) (maxSize : Nat) :
    ∀ (ws : List (Int × Nat)) (c ap : Bool) (f sz : Nat),
      createSqlLoop ext maxSize c ap f sz (ws.map some)
        = createSqlLoop ext maxSize c ap f sz
            ((ws.map (fun cw => ((0 : Int), cw.2))).map some) := by
  intro ws
  induction ws with
  | nil => intro c ap f sz; rfl
  | cons cw rest ih =>
    intro c ap f sz
    obtain ⟨code, w⟩ := cw
    simp only [List.map_cons, createSqlLoop]
    split
    · rfl
    · rw [← ih]
      have hlen : (List.map some (rest.map (fun cw => ((0 : Int), cw.2)))).isEmpty
          = (List.map some rest).isEmpty := by
        cases rest <;> rfl
      rw [hlen]

/-! ### Claim theorems about the export loop -/

/-- Claim C1: in a run of the export loop over a non-empty sequence of
datasets on which every converter launch succeeds (and whose output
template does not trigger the `'gz'` abort), the `-d` (create) switch is
passed on exactly the first invocation and the `-I` (index) switch on
exactly the last invocation, whatever the sizes written (and hence
however many rotations occur). -/
theorem createSql_first_last_flags (out : List Char) (hgz : outExtOf out ≠ ['g', 'z'])
    (w : Int × Nat) (ws : List (Int × Nat)) :
    ∃ l, createSql out ((w :: ws).map some) = .ok l ∧
      l.map (fun i => i.create) = true :: List.replicate ws.length false ∧
      l.map (fun i => i.index) = List.replicate ws.length false ++ [true] := by
  obtain ⟨l, hl, hlen, hc, hi⟩ :=
    createSqlLoop_ok (outExtOf out) maxSqlSize hgz (w :: ws) true false 1 0
  exact ⟨l, hl, by simpa using hc, by simpa using hi⟩

/-- Witness for C1 at a concrete two-dataset run. -/
theorem createSql_first_last_flags_witness :
    ∃ l, createSql "o.sql".data ([((0 : Int), 5), ((0 : Int), 6)].map some) = .ok l ∧
      l.map (fun i => i.create) = true :: List.replicate 1 false ∧
      l.map (fun i => i.index) = List.replicate 1 false ++ [true] :=
  createSql_first_last_flags "o.sql".data (by decide) (0, 5) [(0, 6)]

/-- Claim C2, counterexample: with three datasets of which the second
one's converter fails to launch, the run aborts with the propagated
exception after only one completed invocation — the first dataset
succeeded, yet the run is fatal, the failure is recorded nowhere, and
the remaining dataset is never processed. -/
theorem createSql_launch_abort_cex :
    createSql "o.sql".data [some (0, 5), none, some (0, 7)]
      = .error (.launchFailure, [⟨true, false, 1, 5, 5⟩]) := by
  rfl

/-- Claim C2, amended: the loop performs no failure accounting at all.
A converter invocation that fails to launch raises and aborts the whole
run (regardless of how many datasets already succeeded), having
completed exactly the invocations before it; a run on which every
launch succeeds completes with one invocation per dataset; the
converter's exit status is never consulted — replacing every exit code
by `0` leaves the run's outcome unchanged. -/
theorem createSql_failure_semantics :
    (∀ (out : List Char), outExtOf out ≠ ['g', 'z'] →
      ∀ (pre : List (Int × Nat)) (rest : List (Option (Int × Nat))),
        ∃ l, createSql out (pre.map some ++ none :: rest)
            = .error (.launchFailure, l) ∧ l.length = pre.length)
    ∧ (∀ (out : List Char), outExtOf out ≠ ['g', 'z'] → ∀ (ws : List (Int × Nat)),
        ∃ l, createSql out (ws.map some) = .ok l ∧ l.length = ws.length)
    ∧ (∀ (out : List Char) (ws : List (Int × Nat)),
        createSql out (ws.map some)
          = createSql out ((ws.map (fun cw => ((0 : Int), cw.2))).map some)) := by
  refine ⟨?_, ?_, ?_⟩
  · intro out hgz pre rest
    exact createSqlLoop_launch (outExtOf out) maxSqlSize hgz pre rest true false 1 0
  · intro out hgz ws
    obtain ⟨l, hl, hlen, _, _⟩ := createSqlLoop_ok (outExtOf out) maxSqlSize hgz ws true false 1 0
    exact ⟨l, hl, hlen⟩
  · intro out ws
    exact createSqlLoop_code_irrelevant (outExtOf out) maxSqlSize ws true false 1 0

/-- Witness for the amended C2 at concrete runs. -/
theorem createSql_failure_semantics_witness :
    (∃ l, createSql "o.sql".data ([((0 : Int), 5)].map some ++ none :: [])
        = .error (.launchFailure, l) ∧ l.length = 1)
    ∧ (∃ l, createSql "o.sql".data ([((0 : Int), 5)].map some) = .ok l ∧ l.length = 1)
    ∧ createSql "o.sql".data ([((7 : Int), 5)].map some)
        = createSql "o.sql".data (([((7 : Int), 5)].map (fun cw => ((0 : Int), cw.2))).map some) :=
  ⟨createSql_failure_semantics.1 "o.sql".data (by decide) [(0, 5)] [],
   createSql_failure_semantics.2.1 "o.sql".data (by decide) [(0, 5)],
   createSql_failure_semantics.2.2 "o.sql".data [(7, 5)]⟩

/-- Claim C4: a segment rotates (the file number increments and the next
write starts a fresh segment size instead of accumulating) if and only
if the segment file's size after the most recent invocation strictly
exceeds the 100 MiB threshold; concretely, writes of 60 MiB, 60 MiB and
10 MiB land in segments 1, 1 and 2, rotating after the second write at
120 MiB. -/
theorem createSql_rotation_iff :
    (∀ (out : List Char), outExtOf out ≠ ['g', 'z'] → ∀ (ws : List (Int × Nat)),
      ∃ l, createSql out (ws.map some) = .ok l ∧ rotOk maxSqlSize false 1 0 l = true)
    ∧ createSql "o.sql".data [some (0, 62914560), some (0, 62914560), some (0, 10485760)]
        = .ok [⟨true, false, 1, 62914560, 62914560⟩,
               ⟨false, false, 1, 125829120, 62914560⟩,
               ⟨false, true, 2, 10485760, 10485760⟩] := by
  constructor
  · intro out hgz ws
    obtain ⟨l, hl, _⟩ := createSqlLoop_ok (outExtOf out) maxSqlSize hgz ws true false 1 0
    exact ⟨l, hl, createSqlLoop_rotOk (outExtOf out) maxSqlSize ws true false 1 0 l hl⟩
  · rfl

/-- Witness for C4 at a concrete one-dataset run. -/
theorem createSql_rotation_iff_witness :
    ∃ l, createSql "o.sql".data ([((0 : Int), 9)].map some) = .ok l ∧
      rotOk maxSqlSize false 1 0 l = true :=
  createSql_rotation_iff.1 "o.sql".data (by decide) [(0, 9)]

/-- Claim C9, counterexample: when the converter subprocess fails to
launch, the working directory is NOT restored — the exception
propagates while the process is still in the temp directory. -/
theorem invokeInTmp_not_restored_cex :
    invokeInTmp "/tmp" false "/home/user" = .error "/tmp" ∧ "/tmp" ≠ "/home/user" :=
  ⟨rfl, by decide⟩

/-- Claim C9, amended: the working directory is switched to the temp
directory for the invocation and restored afterwards whenever `Popen`
succeeds in launching the subprocess (the child's exit status is never
consulted, so a failing conversion still restores it); but when `Popen`
itself raises, there is no `try/finally` and the working directory is
left at the temp directory. -/
theorem invokeInTmp_cwd_semantics (tmpDir cwd : String) (launchOk : Bool) :
    (launchOk = true → invokeInTmp tmpDir launchOk cwd = .ok cwd)
    ∧ (launchOk = false → invokeInTmp tmpDir launchOk cwd = .error tmpDir) := by
  constructor <;> rintro rfl <;> rfl

/-- Witness for the amended C9. -/
theorem invokeInTmp_cwd_semantics_witness :
    invokeInTmp "/tmp" true "/work" = .ok "/work"
    ∧ invokeInTmp "/tmp" false "/work" = .error "/tmp" :=
  ⟨(invokeInTmp_cwd_semantics "/tmp" "/work" true).1 rfl,
   (invokeInTmp_cwd_semantics "/tmp" "/work" false).2 rfl⟩

/-! ### Segment naming (claim C10) -/

theorem rfindDot_none_iff (s : List Char) : rfindDot s = none ↔ '.' ∉ s := by
  induction s with
  | nil => simp [rfindDot]
  | cons c rest ih =>
    simp only [rfindDot]
    cases h : rfindDot rest with
    | some k =>
      have hm : '.' ∈ rest := by
        by_contra hn
        rw [ih.mpr hn] at h
        cases h
      simp [hm]
    | none =>
      have hn : '.' ∉ rest := ih.mp h
      by_cases hc : c = '.'
      · subst hc
        simp
      · rw [if_neg hc]
        simp only [List.mem_cons]
        constructor
        · intro _ h2
          rcases h2 with h2 | h2
          · exact hc h2.symm
          · exact hn h2
        · intro _
          trivial

theorem rfindDot_some (s : List Char) :
    ∀ (k : Nat), rfindDot s = some k →
      s.take k ++ '.' :: s.drop (k + 1) = s ∧ '.' ∉ s.drop (k + 1) := by
  induction s with
  | nil => intro k h; cases h
  | cons c rest ih =>
    intro k h
    simp only [rfindDot] at h
    cases h2 : rfindDot rest with
    | some k3 =>
      rw [h2] at h
      cases h
      obtain ⟨e1, e2⟩ := ih k3 h2
      constructor
      · simpa [List.take_succ_cons, List.drop_succ_cons] using congrArg (c :: ·) e1
      · simpa [List.drop_succ_cons] using e2
    | none =>
      rw [h2] at h
      by_cases hc : c = '.'
      · rw [if_pos hc] at h
        cases h
        subst hc
        exact ⟨rfl, (rfindDot_none_iff rest).mp h2⟩
      · rw [if_neg hc] at h
        cases h

/-- Claim C10: segment file naming splits the output template at its
last `'.'`: when the template contains a dot, the derived base name and
extension are the parts before and after the last dot (the extension
containing no further dot); when it contains no dot, the base name is
the template minus its final character and the extension is the entire
template; segment `n` is always named `base ++ "." ++ n ++ "." ++ ext`. -/
theorem segment_naming_split (s : List Char) (n : Nat) :
    ('.' ∈ s → outNameOf s ++ '.' :: outExtOf s = s ∧ '.' ∉ outExtOf s)
    ∧ ('.' ∉ s → outNameOf s = s.dropLast ∧ outExtOf s = s)
    ∧ segFileName s n = outNameOf s ++ '.' :: (Nat.repr n).data ++ '.' :: outExtOf s := by
  refine ⟨?_, ?_, rfl⟩
  · intro hdot
    cases hk : rfindDot s with
    | none => exact absurd hdot ((rfindDot_none_iff s).mp hk)
    | some k =>
      obtain ⟨e1, e2⟩ := rfindDot_some s k hk
      unfold outNameOf outExtOf
      rw [hk]
      exact ⟨e1, e2⟩
  · intro hdot
    have hk := (rfindDot_none_iff s).mpr hdot
    unfold outNameOf outExtOf
    rw [hk]
    exact ⟨(List.dropLast_eq_take s).symm, rfl⟩

/-- Witness for C10 at a dotted and an undotted concrete template. -/
theorem segment_naming_split_witness :
    (outNameOf "a.b".data ++ '.' :: outExtOf "a.b".data = "a.b".data
      ∧ '.' ∉ outExtOf "a.b".data)
    ∧ (outNameOf "ab".data = "ab".data.dropLast ∧ outExtOf "ab".data = "ab".data) :=
  ⟨(segment_naming_split "a.b".data 1).1 (by decide),
   (segment_naming_split "ab".data 1).2.1 (by decide)⟩

/-! ### Claim C7: batch boundaries are archive boundaries -/

/-- Claim C7: a batch scan starting with an empty result list consumes
whole archives only — its shapefile list is exactly the concatenation of
the scanned archives' matches (an archive's matches are never split
across batches); it stops either at archive exhaustion or with at least
`batchSize` shapefiles collected, and it never scans beyond the first
archive that fills the batch (every proper prefix of the scanned span is
still short of the batch size).  A batch can exceed the nominal size:
with `batchSize = 1`, one archive holding two shapefiles yields a batch
of 2. -/
theorem scanBatch_whole_archives :
    (∀ (pat : String → Bool) (bs : Nat) (zips : List Archive) (disk : List String),
      (scanBatch pat bs zips [] [] disk).shp
          = (zips.take (scanBatch pat bs zips [] [] disk).n).flatMap (archShp pat)
      ∧ (scanBatch pat bs zips [] [] disk).n ≤ zips.length
      ∧ ((scanBatch pat bs zips [] [] disk).n = zips.length
          ∨ bs ≤ (scanBatch pat bs zips [] [] disk).shp.length)
      ∧ (∀ m, m + 1 < (scanBatch pat bs zips [] [] disk).n →
          ((zips.take (m + 1)).flatMap (archShp pat)).length < bs))
    ∧ (scanBatch (fun _ => true) 1 [⟨true, ["a.shp", "b.shp"]⟩] [] [] []).shp.length = 2 := by
  constructor
  · intro pat bs zips disk
    refine ⟨by simpa using scanBatch_shp pat bs zips [] [] disk,
      scanBatch_n_le pat bs zips [] [] disk,
      scanBatch_stop pat bs zips [] [] disk, ?_⟩
    intro m hm
    simpa using scanBatch_min pat bs zips [] [] disk m hm
  · rfl

/-- Witness for C7: the prefix-short property applied at a concrete scan
that consumes three archives. -/
theorem scanBatch_whole_archives_witness :
    ((([⟨true, []⟩, ⟨true, []⟩, ⟨true, ["c.shp"]⟩] : List Archive).take (0 + 1)).flatMap
        (archShp (fun _ => true))).length < 1 :=
  (scanBatch_whole_archives.1 (fun _ => true) 1
    [⟨true, []⟩, ⟨true, []⟩, ⟨true, ["c.shp"]⟩] []).2.2.2 0 (by decide)

/-! ### Claim C8: corrupt archives are skipped, the cursor never moves back -/

/-- The cursor-reset cases of `hasNext` (`if not self.zipList`) can only
occur with the cursor already at zero: before the first load the cursor
attribute is fresh, and an empty archive list never advances it. -/
def ZInv (s : SL) : Prop :=
  (s.zipList = none → s.zipIndex = 0) ∧ (s.zipList = some [] → s.zipIndex = 0)

theorem ZInv_mk (s s' : SL) (hz : s'.zipList = s.zipList)
    (hi : s'.zipIndex = s.zipIndex) (h : ZInv s) : ZInv s' := by
  unfold ZInv
  rw [hz, hi]
  exact h

theorem ensureZipList_spec (s : SL) (h : ZInv s) :
    (ensureZipList s).zipIndex = s.zipIndex ∧ ZInv (ensureZipList s) := by
  unfold ensureZipList
  cases hz : s.zipList with
  | none =>
    refine ⟨(h.1 hz).symm, ?_⟩
    constructor
    · intro h2
      cases h2
    · intro h2
      rfl
  | some l =>
    cases l with
    | nil =>
      refine ⟨(h.2 hz).symm, ?_⟩
      constructor
      · intro h2
        cases h2
      · intro h2
        rfl
    | cons a l2 =>
      refine ⟨rfl, ?_⟩
      constructor
      · intro h2
        rw [hz] at h2
        cases h2
      · intro h2
        rw [hz] at h2
        cases h2

theorem loadShpList_spec (s : SL) (h : ZInv s) :
    s.zipIndex ≤ (loadShpList s).zipIndex ∧ ZInv (loadShpList s) := by
  constructor
  · exact Nat.le_add_right _ _
  · constructor
    · intro h2
      have hz : s.zipList = none := h2
      have hi := h.1 hz
      show s.zipIndex + _ = 0
      rw [hz, hi]
      rfl
    · intro h2
      have hz : s.zipList = some [] := h2
      have hi := h.2 hz
      show s.zipIndex + _ = 0
      rw [hz, hi]
      rfl

theorem ensureShpList_spec (s : SL) (h : ZInv s) :
    s.zipIndex ≤ (ensureShpList s).zipIndex ∧ ZInv (ensureShpList s) := by
  unfold ensureShpList
  cases hs : s.shpList with
  | none => exact loadShpList_spec s h
  | some l =>
    cases l with
    | nil => exact loadShpList_spec s h
    | cons x xs => exact ⟨le_refl _, h⟩

theorem hasNext_snd (s : SL) :
    (hasNext s).2 = ensureShpList (ensureZipList s) := by
  unfold hasNext
  cases hsl : (ensureShpList (ensureZipList s)).shpList with
  | none => simp [hsl]
  | some l => cases l <;> simp [hsl]

theorem delPhase_zipIndex (s : SL) : (delPhase s).zipIndex = s.zipIndex := by
  unfold delPhase
  split <;> rfl

theorem delPhase_zipList (s : SL) : (delPhase s).zipList = s.zipList := by
  unfold delPhase
  split <;> rfl

theorem armPhase_zipIndex (s : SL) : (armPhase s).zipIndex = s.zipIndex := by
  cases hs : s.shpList with
  | none => simp [armPhase, hs]
  | some l =>
    simp only [armPhase, hs]
    split <;> rfl

theorem armPhase_zipList (s : SL) : (armPhase s).zipList = s.zipList := by
  cases hs : s.shpList with
  | none => simp [armPhase, hs]
  | some l =>
    simp only [armPhase, hs]
    split <;> rfl

theorem next_snd_cases (s : SL) (b : Bool) (s3 : SL)
    (hh : hasNext (armPhase (delPhase s)) = (b, s3)) :
    (next s).2 = s3
      ∨ ∃ x xs, s3.shpList = some (x :: xs)
          ∧ (next s).2 = { s3 with shpList := some xs, currentShp := some x } := by
  simp only [next]
  rw [hh]
  cases b with
  | false => exact Or.inl rfl
  | true =>
    dsimp only
    cases hsl : s3.shpList with
    | none => exact Or.inl rfl
    | some l =>
      cases l with
      | nil => exact Or.inl rfl
      | cons x xs => exact Or.inr ⟨x, xs, rfl, rfl⟩

theorem stepOp_mono (o : SLOp) (s : SL) (h : ZInv s) :
    s.zipIndex ≤ (stepOp o s).zipIndex ∧ ZInv (stepOp o s) := by
  cases o with
  | callHasNext =>
    show s.zipIndex ≤ (hasNext s).2.zipIndex ∧ ZInv (hasNext s).2
    rw [hasNext_snd]
    have h1 := ensureZipList_spec s h
    have h2 := ensureShpList_spec _ h1.2
    exact ⟨h1.1 ▸ h2.1, h2.2⟩
  | callNext =>
    show s.zipIndex ≤ (next s).2.zipIndex ∧ ZInv (next s).2
    have hZa : ZInv (armPhase (delPhase s)) :=
      ZInv_mk _ _ ((armPhase_zipList _).trans (delPhase_zipList _))
        ((armPhase_zipIndex _).trans (delPhase_zipIndex _)) h
    have hia : (armPhase (delPhase s)).zipIndex = s.zipIndex :=
      (armPhase_zipIndex _).trans (delPhase_zipIndex _)
    have h1 := ensureZipList_spec _ hZa
    have h2 := ensureShpList_spec _ h1.2
    have hle : s.zipIndex ≤ (hasNext (armPhase (delPhase s))).2.zipIndex := by
      rw [hasNext_snd]
      calc s.zipIndex = (armPhase (delPhase s)).zipIndex := hia.symm
        _ = (ensureZipList (armPhase (delPhase s))).zipIndex := h1.1.symm
        _ ≤ _ := h2.1
    have hZ2 : ZInv (hasNext (armPhase (delPhase s))).2 := by
      rw [hasNext_snd]
      exact h2.2
    cases hh : hasNext (armPhase (delPhase s)) with
    | mk b s3 =>
      have hle3 : s.zipIndex ≤ s3.zipIndex := by rw [hh] at hle; exact hle
      have hZ3 : ZInv s3 := by rw [hh] at hZ2; exact hZ2
      rcases next_snd_cases s b s3 hh with he | ⟨x, xs, _, he⟩
      · rw [he]
        exact ⟨hle3, hZ3⟩
      · rw [he]
        exact ⟨hle3, ZInv_mk _ s3 rfl rfl hZ3⟩

theorem runOps_mono (ops : List SLOp) (s : SL) (h : ZInv s) :
    s.zipIndex ≤ (runOps ops s).zipIndex ∧ ZInv (runOps ops s) := by
  induction ops generalizing s with
  | nil => exact ⟨le_refl _, h⟩
  | cons o os ih =>
    have h1 := stepOp_mono o s h
    have h2 := ih (stepOp o s) h1.2
    exact ⟨le_trans h1.1 h2.1, h2.2⟩

theorem runOps_append (ops1 ops2 : List SLOp) (s : SL) :
    runOps (ops1 ++ ops2) s = runOps ops2 (runOps ops1 s) := by
  induction ops1 generalizing s with
  | nil => rfl
  | cons o os ih => exact ih (stepOp o s)

/-- Claim C8: an archive that cannot be opened contributes nothing to
the batch (its failure is only reported), the scan continues with the
following archives, and the cursor still advances past it; and over any
sequence of `next`/`hasNext` calls from a fresh extractor, the cursor is
monotonically non-decreasing, so a scanned (or failed) archive is never
revisited. -/
theorem scan_skip_and_cursor_monotone :
    (∀ (pat : String → Bool) (bs : Nat) (a : Archive) (rest : List Archive)
        (shp tmp disk : List String), a.ok = false → shp.length < bs →
        scanBatch pat bs (a :: rest) shp tmp disk
          = ⟨(scanBatch pat bs rest shp tmp disk).shp,
             (scanBatch pat bs rest shp tmp disk).tmp,
             (scanBatch pat bs rest shp tmp disk).n + 1,
             (scanBatch pat bs rest shp tmp disk).disk⟩)
    ∧ (∀ (pat : String → Bool) (folder : List Archive) (bs : Nat) (ops1 ops2 : List SLOp),
        (runOps ops1 (mkShapefileList pat folder bs)).zipIndex
          ≤ (runOps (ops1 ++ ops2) (mkShapefileList pat folder bs)).zipIndex) := by
  constructor
  · intro pat bs a rest shp tmp disk hok hlt
    have hnle : ¬ bs ≤ shp.length := Nat.not_le.mpr hlt
    simp [scanBatch, archMatched, hok, hnle]
  · intro pat folder bs ops1 ops2
    have hinv : ZInv (mkShapefileList pat folder bs) :=
      ⟨fun _ => rfl, fun h2 => by cases h2⟩
    rw [runOps_append]
    exact (runOps_mono ops2 _ (runOps_mono ops1 _ hinv).2).1

/-- Witness for C8: a corrupt archive at the head of a concrete scan is
skipped with the cursor advanced past it. -/
theorem scan_skip_and_cursor_monotone_witness :
    scanBatch (fun _ => true) 5 [⟨false, ["x.shp"]⟩, ⟨true, ["y.shp"]⟩] [] [] []
      = ⟨(scanBatch (fun _ => true) 5 [⟨true, ["y.shp"]⟩] [] [] []).shp,
         (scanBatch (fun _ => true) 5 [⟨true, ["y.shp"]⟩] [] [] []).tmp,
         (scanBatch (fun _ => true) 5 [⟨true, ["y.shp"]⟩] [] [] []).n + 1,
         (scanBatch (fun _ => true) 5 [⟨true, ["y.shp"]⟩] [] [] []).disk⟩ :=
  scan_skip_and_cursor_monotone.1 (fun _ => true) 5 ⟨false, ["x.shp"]⟩
    [⟨true, ["y.shp"]⟩] [] [] [] rfl (by decide)

/-! ### Disk evolution through the iterator operations -/

theorem scanBatch_disk_mono (pat : String → Bool) (bs : Nat) :
    ∀ (zips : List Archive) (shp tmp disk : List String) (x : String),
      x ∈ disk → x ∈ (scanBatch pat bs zips shp tmp disk).disk := by
  intro zips
  induction zips with
  | nil => intro shp tmp disk x hx; simpa [scanBatch] using hx
  | cons a rest ih =>
    intro shp tmp disk x hx
    simp only [scanBatch]
    split
    · exact mem_foldl_insertFile.mpr (Or.inl hx)
    · exact ih _ _ _ x (mem_foldl_insertFile.mpr (Or.inl hx))

theorem ensureZipList_disk (s : SL) : (ensureZipList s).disk = s.disk := by
  unfold ensureZipList
  cases s.zipList with
  | none => rfl
  | some l => cases l <;> rfl

theorem ensureZipList_tmpFiles (s : SL) : (ensureZipList s).tmpFiles = s.tmpFiles := by
  unfold ensureZipList
  cases s.zipList with
  | none => rfl
  | some l => cases l <;> rfl

theorem ensureZipList_shpList (s : SL) : (ensureZipList s).shpList = s.shpList := by
  unfold ensureZipList
  cases s.zipList with
  | none => rfl
  | some l => cases l <;> rfl

theorem loadShpList_disk_mem (t : SL) (f : String) (hm : f ∈ (loadShpList t).disk) :
    f ∈ t.disk ∨ f ∈ ((loadShpList t).tmpFiles.getD []) := by
  simp only [loadShpList] at hm ⊢
  rcases scanBatch_disk_mem _ _ _ _ _ _ f hm with h1 | h1
  · exact Or.inl h1
  · exact Or.inr (by simpa using h1)

theorem loadShpList_disk_mono (t : SL) (f : String) (hm : f ∈ t.disk) :
    f ∈ (loadShpList t).disk := by
  simp only [loadShpList]
  exact scanBatch_disk_mono _ _ _ _ _ _ f hm

theorem hasNext_disk_mem (s : SL) (f : String) (hm : f ∈ (hasNext s).2.disk) :
    f ∈ s.disk ∨ f ∈ ((hasNext s).2.tmpFiles.getD []) := by
  rw [hasNext_snd] at hm ⊢
  unfold ensureShpList at hm ⊢
  cases hs : (ensureZipList s).shpList with
  | none =>
    rw [hs] at hm
    dsimp only at hm ⊢
    rcases loadShpList_disk_mem _ f hm with h1 | h1
    · exact Or.inl (ensureZipList_disk s ▸ h1)
    · exact Or.inr h1
  | some l =>
    cases l with
    | nil =>
      rw [hs] at hm
      dsimp only at hm ⊢
      rcases loadShpList_disk_mem _ f hm with h1 | h1
      · exact Or.inl (ensureZipList_disk s ▸ h1)
      · exact Or.inr h1
    | cons y ys =>
      rw [hs] at hm
      dsimp only at hm
      exact Or.inl (ensureZipList_disk s ▸ hm)

theorem hasNext_disk_mono (s : SL) (f : String) (hm : f ∈ s.disk) :
    f ∈ (hasNext s).2.disk := by
  rw [hasNext_snd]
  unfold ensureShpList
  cases hs : (ensureZipList s).shpList with
  | none =>
    dsimp only
    exact loadShpList_disk_mono _ f (ensureZipList_disk s ▸ hm)
  | some l =>
    cases l with
    | nil =>
      dsimp only
      exact loadShpList_disk_mono _ f (ensureZipList_disk s ▸ hm)
    | cons y ys =>
      dsimp only
      exact ensureZipList_disk s ▸ hm

theorem delPhase_disk_false (s : SL) (h : s.triggerCleanup = false) :
    delPhase s = s := by
  unfold delPhase
  rw [h]
  rfl

theorem delPhase_disk_true (s : SL) (h : s.triggerCleanup = true) :
    (delPhase s).disk = deleteFiles s.cleanupFiles s.disk := by
  unfold delPhase
  rw [h]
  rfl

theorem armPhase_disk (s : SL) : (armPhase s).disk = s.disk := by
  cases hs : s.shpList with
  | none => simp [armPhase, hs]
  | some l =>
    simp only [armPhase, hs]
    split <;> rfl

theorem armPhase_tmpFiles (s : SL) : (armPhase s).tmpFiles = s.tmpFiles := by
  cases hs : s.shpList with
  | none => simp [armPhase, hs]
  | some l =>
    simp only [armPhase, hs]
    split <;> rfl

theorem next_disk_tmp (s : SL) :
    (next s).2.disk = (hasNext (armPhase (delPhase s))).2.disk
    ∧ (next s).2.tmpFiles = (hasNext (armPhase (delPhase s))).2.tmpFiles := by
  rcases next_snd_cases s (hasNext (armPhase (delPhase s))).1
      (hasNext (armPhase (delPhase s))).2 rfl with he | ⟨x, xs, _, he⟩
  · rw [he]
    exact ⟨rfl, rfl⟩
  · rw [he]
    exact ⟨rfl, rfl⟩

/-! ### Claim C3: deferred temp-file deletion -/

/-- Claim C3, counterexample: a batch holding a single shapefile is
loaded and consumed within one `next()` call, so the arming check (which
runs before the batch is loaded) never fires: after the call returning
the dataset AND one further `next()` call, the extracted temp file is
still on disk — it is never deleted by `next()`. -/
theorem deferred_delete_single_batch_cex :
    (next (mkShapefileList (fun _ => true) [⟨true, ["a.shp"]⟩] 50)).1 = some "a.shp"
    ∧ (next ((next (mkShapefileList (fun _ => true) [⟨true, ["a.shp"]⟩] 50)).2)).1 = none
    ∧ (next ((next (mkShapefileList (fun _ => true) [⟨true, ["a.shp"]⟩] 50)).2)).2.disk
        = ["a.shp"] :=
  ⟨rfl, rfl, rfl⟩

/-- Claim C3, amended: deletion is a lag-one mechanism keyed on the
arming check.  (i) A `next()` call that begins with exactly one
shapefile remaining returns it and arms deletion of the batch's tracked
files; (ii) at any later call made with deletion armed, every armed file
is removed from disk and can only be present afterwards if it was
re-extracted for — and is then tracked by — the freshly loaded batch;
(iii) a call made with deletion unarmed deletes nothing (the disk only
grows).  A batch whose single shapefile is loaded and popped within the
same call is never armed, so `next()` never deletes its files. -/
theorem deferred_delete_mechanism :
    (∀ (s : SL) (x : String) (T : List String),
        s.shpList = some [x] → s.tmpFiles = some T → s.triggerCleanup = false →
        (next s).1 = some x ∧ (next s).2.triggerCleanup = true
          ∧ (next s).2.cleanupFiles = T)
    ∧ (∀ (s : SL) (f : String), s.triggerCleanup = true → f ∈ s.cleanupFiles →
        f ∉ (next s).2.disk ∨ f ∈ ((next s).2.tmpFiles.getD []))
    ∧ (∀ (s : SL) (f : String), s.triggerCleanup = false → f ∈ s.disk →
        f ∈ (next s).2.disk) := by
  refine ⟨?_, ?_, ?_⟩
  · intro s x T h1 h2 h3
    obtain ⟨pt, fold, bs, zl, zi, shpl, tf, cf, tc, cs, dk⟩ := s
    dsimp only at h1 h2 h3
    subst h1
    subst h2
    subst h3
    cases zl with
    | none => exact ⟨rfl, rfl, rfl⟩
    | some l =>
      cases l with
      | nil => exact ⟨rfl, rfl, rfl⟩
      | cons a l2 => exact ⟨rfl, rfl, rfl⟩
  · intro s f h1 h2
    have hfd : f ∉ (armPhase (delPhase s)).disk := by
      rw [armPhase_disk, delPhase_disk_true s h1]
      intro hm
      exact (mem_deleteFiles.mp hm).2 h2
    have hd := next_disk_tmp s
    by_cases hmem : f ∈ (next s).2.disk
    · right
      rw [hd.2]
      rcases hasNext_disk_mem (armPhase (delPhase s)) f (by rw [← hd.1]; exact hmem)
        with h3 | h3
      · exact absurd h3 hfd
      · exact h3
    · exact Or.inl hmem
  · intro s f h1 h2
    have hd := next_disk_tmp s
    rw [hd.1]
    apply hasNext_disk_mono
    rw [armPhase_disk, delPhase_disk_false s h1]
    exact h2

/-- Witness for the amended C3: arming on a concrete one-remaining
state, deletion of an armed file at the following call, and disk growth
on an unarmed call. -/
theorem deferred_delete_mechanism_witness :
    ((next (⟨fun _ => true, [], 50, some [], 0, some ["a.shp"], some ["a.shp", "a.prj"],
        [], false, none, ["a.shp", "a.prj"]⟩ : SL)).1 = some "a.shp"
      ∧ (next (⟨fun _ => true, [], 50, some [], 0, some ["a.shp"], some ["a.shp", "a.prj"],
          [], false, none, ["a.shp", "a.prj"]⟩ : SL)).2.triggerCleanup = true
      ∧ (next (⟨fun _ => true, [], 50, some [], 0, some ["a.shp"], some ["a.shp", "a.prj"],
          [], false, none, ["a.shp", "a.prj"]⟩ : SL)).2.cleanupFiles = ["a.shp", "a.prj"])
    ∧ ("a.prj" ∉ (next (⟨fun _ => true, [], 50, some [], 0, some [], some [],
          ["a.shp", "a.prj"], true, none, ["a.shp", "a.prj"]⟩ : SL)).2.disk
        ∨ "a.prj" ∈ ((next (⟨fun _ => true, [], 50, some [], 0, some [], some [],
          ["a.shp", "a.prj"], true, none, ["a.shp", "a.prj"]⟩ : SL)).2.tmpFiles.getD []))
    ∧ "b.shp" ∈ (next (⟨fun _ => true, [], 50, some [], 0, some [], some [],
          [], false, none, ["b.shp"]⟩ : SL)).2.disk :=
  ⟨deferred_delete_mechanism.1 _ "a.shp" ["a.shp", "a.prj"] rfl rfl rfl,
   deferred_delete_mechanism.2.1 _ "a.prj" rfl (by decide),
   deferred_delete_mechanism.2.2 _ "b.shp" rfl (by decide)⟩

/-! ### Claim C6: cleanup -/

/-- Claim C6, counterexample: run the two-shapefile archive to
exhaustion with the controller's `next`/`hasNext` pattern — the final
(empty) batch load overwrites the tracked file list while deferred
deletion for the last batch is still armed; `cleanup` then deletes
nothing and both extracted temp files are left behind. -/
theorem cleanup_leaves_armed_files_cex :
    (hasNext ((next ((next
        (mkShapefileList (fun _ => true) [⟨true, ["a.shp", "b.shp"]⟩] 50)).2)).2)).1 = false
    ∧ (cleanup ((hasNext ((next ((next
        (mkShapefileList (fun _ => true) [⟨true, ["a.shp", "b.shp"]⟩] 50)).2)).2)).2)).disk
        = ["a.shp", "b.shp"] :=
  ⟨rfl, rfl⟩

/-- Claim C6, amended: `cleanup` is idempotent (a second call is a
no-op) and raises no error, and it deletes every file it currently
tracks in `tmpFiles`; but it consults only the tracked list, so files
recorded solely in the armed deferred-deletion list (as after
exhaustion with deletion still armed, when the final empty batch load
has overwritten `tmpFiles`) are left behind. -/
theorem cleanup_idempotent_tracked (s : SL) :
    cleanup (cleanup s) = cleanup s
    ∧ (∀ f, f ∈ s.tmpFiles.getD [] → f ∉ (cleanup s).disk) := by
  constructor
  · cases ht : s.tmpFiles with
    | none => simp [cleanup, ht]
    | some l =>
      have hd : deleteFiles l (deleteFiles l s.disk) = deleteFiles l s.disk := by
        rw [deleteFiles_filter, deleteFiles_filter, List.filter_filter]
        apply List.filter_congr
        intro a _
        exact Bool.and_self _
      simp [cleanup, ht, hd]
  · intro f hf
    cases ht : s.tmpFiles with
    | none =>
      rw [ht] at hf
      simp at hf
    | some l =>
      rw [ht] at hf
      simp only [Option.getD_some] at hf
      intro hm
      have : f ∈ deleteFiles l s.disk := by simpa [cleanup, ht] using hm
      exact (mem_deleteFiles.mp this).2 hf

/-- Witness for the amended C6 at a concrete state. -/
theorem cleanup_idempotent_tracked_witness :
    cleanup (cleanup (⟨fun _ => true, [], 50, some [], 0, some [], some ["a.shp"],
        [], false, none, ["a.shp", "b.shp"]⟩ : SL))
      = cleanup (⟨fun _ => true, [], 50, some [], 0, some [], some ["a.shp"],
        [], false, none, ["a.shp", "b.shp"]⟩ : SL)
    ∧ "a.shp" ∉ (cleanup (⟨fun _ => true, [], 50, some [], 0, some [], some ["a.shp"],
        [], false, none, ["a.shp", "b.shp"]⟩ : SL)).disk :=
  ⟨(cleanup_idempotent_tracked _).1,
   (cleanup_idempotent_tracked _).2 "a.shp" (by decide)⟩

/-! ### Claim C5: batching does not change the yielded sequence -/

/-- The shapefiles the iterator has yet to yield: the current batch's
remainder followed by all matches of the unscanned archives. -/
def remaining (s : SL) : List String :=
  s.shpList.getD [] ++ (s.folder.drop s.zipIndex).flatMap (archShp s.pattern)

/-- States reachable through `next`/`hasNext`: the cursor is within the
archive list, and the archive list is either loaded (mirroring the
folder) or still untouched. -/
def Aligned (s : SL) : Prop :=
  s.zipIndex ≤ s.folder.length
  ∧ (s.zipList = some s.folder ∨ (s.zipList = none ∧ s.zipIndex = 0 ∧ s.shpList = none))

theorem next_def (s : SL) :
    next s
      = match hasNext (armPhase (delPhase s)) with
        | (true, s3) =>
          match s3.shpList with
          | some (x :: xs) => (some x, { s3 with shpList := some xs, currentShp := some x })
          | _ => (none, s3)
        | (false, s3) => (none, s3) := rfl

theorem armDel_fields (s : SL) :
    ∃ cf2 tc2 d2, armPhase (delPhase s)
      = { s with cleanupFiles := cf2, triggerCleanup := tc2, disk := d2 } := by
  obtain ⟨pt, fold, bs, zl, zi, shpl, tf, cf, tc, cs, dk⟩ := s
  cases tc with
  | false =>
    cases shpl with
    | none => exact ⟨cf, false, dk, rfl⟩
    | some l =>
      by_cases hl : l.length = 1
      · exact ⟨tf.getD [], true, dk, by simp [delPhase, armPhase, hl]⟩
      · exact ⟨cf, false, dk, by simp [delPhase, armPhase, hl]⟩
  | true =>
    cases shpl with
    | none => exact ⟨cf, false, deleteFiles cf dk, rfl⟩
    | some l =>
      by_cases hl : l.length = 1
      · exact ⟨tf.getD [], true, deleteFiles cf dk, by simp [delPhase, armPhase, hl]⟩
      · exact ⟨cf, false, deleteFiles cf dk, by simp [delPhase, armPhase, hl]⟩

theorem hasNext_pop (pt : String → Bool) (fold : List Archive) (bs zi : Nat)
    (x : String) (xs : List String) (tf : Option (List String)) (cf : List String)
    (tc : Bool) (cs : Option String) (dk : List String)
    (hzi : fold = [] → zi = 0) :
    hasNext ⟨pt, fold, bs, some fold, zi, some (x :: xs), tf, cf, tc, cs, dk⟩
      = (true, ⟨pt, fold, bs, some fold, zi, some (x :: xs), tf, cf, tc, cs, dk⟩) := by
  cases fold with
  | nil =>
    have h0 : zi = 0 := hzi rfl
    subst h0
    rfl
  | cons a fold2 => rfl

theorem hasNext_refill (pt : String → Bool) (fold : List Archive) (bs zi : Nat)
    (zl : Option (List Archive)) (shpl tf : Option (List String)) (cf : List String)
    (tc : Bool) (cs : Option String) (dk : List String)
    (hzl : zl = some fold ∨ (zl = none ∧ zi = 0))
    (hzi : fold = [] → zi = 0)
    (hs : shpl = none ∨ shpl = some []) :
    hasNext ⟨pt, fold, bs, zl, zi, shpl, tf, cf, tc, cs, dk⟩
      = (!(scanBatch pt bs (fold.drop zi) [] [] dk).shp.isEmpty,
         ⟨pt, fold, bs, some fold, zi + (scanBatch pt bs (fold.drop zi) [] [] dk).n,
          some (scanBatch pt bs (fold.drop zi) [] [] dk).shp,
          some (scanBatch pt bs (fold.drop zi) [] [] dk).tmp, cf, tc, cs,
          (scanBatch pt bs (fold.drop zi) [] [] dk).disk⟩) := by
  rcases hzl with h | ⟨h, h0⟩
  · subst h
    cases fold with
    | nil =>
      have h0 : zi = 0 := hzi rfl
      subst h0
      rcases hs with h | h <;> subst h <;> rfl
    | cons a fold2 =>
      rcases hs with h | h
      · subst h
        simp only [hasNext]
        rw [show ensureShpList (ensureZipList
            ⟨pt, a :: fold2, bs, some (a :: fold2), zi, none, tf, cf, tc, cs, dk⟩)
          = ⟨pt, a :: fold2, bs, some (a :: fold2),
              zi + (scanBatch pt bs ((a :: fold2).drop zi) [] [] dk).n,
              some (scanBatch pt bs ((a :: fold2).drop zi) [] [] dk).shp,
              some (scanBatch pt bs ((a :: fold2).drop zi) [] [] dk).tmp,
              cf, tc, cs, (scanBatch pt bs ((a :: fold2).drop zi) [] [] dk).disk⟩ from rfl]
        dsimp only
        cases hr : (scanBatch pt bs ((a :: fold2).drop zi) [] [] dk).shp with
        | nil => rfl
        | cons z zs => rfl
      · subst h
        simp only [hasNext]
        rw [show ensureShpList (ensureZipList
            ⟨pt, a :: fold2, bs, some (a :: fold2), zi, some [], tf, cf, tc, cs, dk⟩)
          = ⟨pt, a :: fold2, bs, some (a :: fold2),
              zi + (scanBatch pt bs ((a :: fold2).drop zi) [] [] dk).n,
              some (scanBatch pt bs ((a :: fold2).drop zi) [] [] dk).shp,
              some (scanBatch pt bs ((a :: fold2).drop zi) [] [] dk).tmp,
              cf, tc, cs, (scanBatch pt bs ((a :: fold2).drop zi) [] [] dk).disk⟩ from rfl]
        dsimp only
        cases hr : (scanBatch pt bs ((a :: fold2).drop zi) [] [] dk).shp with
        | nil => rfl
        | cons z zs => rfl
  · subst h
    subst h0
    rcases hs with h | h
    · subst h
      simp only [hasNext]
      rw [show ensureShpList (ensureZipList
          ⟨pt, fold, bs, none, 0, none, tf, cf, tc, cs, dk⟩)
        = ⟨pt, fold, bs, some fold,
            0 + (scanBatch pt bs (fold.drop 0) [] [] dk).n,
            some (scanBatch pt bs (fold.drop 0) [] [] dk).shp,
            some (scanBatch pt bs (fold.drop 0) [] [] dk).tmp,
            cf, tc, cs, (scanBatch pt bs (fold.drop 0) [] [] dk).disk⟩ from rfl]
      dsimp only
      cases hr : (scanBatch pt bs (fold.drop 0) [] [] dk).shp with
      | nil => rfl
      | cons z zs => rfl
    · subst h
      simp only [hasNext]
      rw [show ensureShpList (ensureZipList
          ⟨pt, fold, bs, none, 0, some [], tf, cf, tc, cs, dk⟩)
        = ⟨pt, fold, bs, some fold,
            0 + (scanBatch pt bs (fold.drop 0) [] [] dk).n,
            some (scanBatch pt bs (fold.drop 0) [] [] dk).shp,
            some (scanBatch pt bs (fold.drop 0) [] [] dk).tmp,
            cf, tc, cs, (scanBatch pt bs (fold.drop 0) [] [] dk).disk⟩ from rfl]
      dsimp only
      cases hr : (scanBatch pt bs (fold.drop 0) [] [] dk).shp with
      | nil => rfl
      | cons z zs => rfl

theorem flatMap_drop_split (g : Archive → List String) (l : List Archive) (i n : Nat) :
    (l.drop i).flatMap g
      = ((l.drop i).take n).flatMap g ++ (l.drop (i + n)).flatMap g := by
  conv_lhs => rw [← List.take_append_drop n (l.drop i)]
  rw [List.flatMap_append, List.drop_drop]

/-- One `next` call on an aligned state either reports exhaustion with
nothing left to yield, or yields exactly the head of `remaining`. -/
theorem next_yield_step (s : SL) (hA : Aligned s) (hbs : 1 ≤ s.batchSize) :
    ((next s).1 = none ∧ remaining s = [])
    ∨ (∃ x, (next s).1 = some x
        ∧ remaining s = x :: remaining (next s).2
        ∧ Aligned (next s).2
        ∧ (next s).2.batchSize = s.batchSize) := by
  obtain ⟨pt, fold, bs, zl, zi, shpl, tf, cf, tc, cs, dk⟩ := s
  obtain ⟨hle, hzl⟩ := hA
  dsimp only at hle hzl hbs
  obtain ⟨cf2, tc2, d2, hs2⟩ := armDel_fields ⟨pt, fold, bs, zl, zi, shpl, tf, cf, tc, cs, dk⟩
  dsimp only at hs2
  have hzi0 : fold = [] → zi = 0 := by
    intro hf
    subst hf
    simpa using hle
  have hrefill : (shpl = none ∨ shpl = some []) →
      (zl = some fold ∨ (zl = none ∧ zi = 0)) →
      ((next (⟨pt, fold, bs, zl, zi, shpl, tf, cf, tc, cs, dk⟩ : SL)).1 = none
        ∧ remaining ⟨pt, fold, bs, zl, zi, shpl, tf, cf, tc, cs, dk⟩ = [])
      ∨ (∃ x, (next (⟨pt, fold, bs, zl, zi, shpl, tf, cf, tc, cs, dk⟩ : SL)).1 = some x
          ∧ remaining ⟨pt, fold, bs, zl, zi, shpl, tf, cf, tc, cs, dk⟩
              = x :: remaining (next (⟨pt, fold, bs, zl, zi, shpl, tf, cf, tc, cs, dk⟩ : SL)).2
          ∧ Aligned (next (⟨pt, fold, bs, zl, zi, shpl, tf, cf, tc, cs, dk⟩ : SL)).2
          ∧ (next (⟨pt, fold, bs, zl, zi, shpl, tf, cf, tc, cs, dk⟩ : SL)).2.batchSize = bs) := by
    intro hcases hzlc
    have hlen := scanBatch_n_le pt bs (fold.drop zi) [] [] d2
    have hshp := scanBatch_shp pt bs (fold.drop zi) [] [] d2
    have hstop := scanBatch_stop pt bs (fold.drop zi) [] [] d2
    cases hr : (scanBatch pt bs (fold.drop zi) [] [] d2).shp with
    | nil =>
      left
      have hnx : next (⟨pt, fold, bs, zl, zi, shpl, tf, cf, tc, cs, dk⟩ : SL)
          = (none, ⟨pt, fold, bs, some fold,
              zi + (scanBatch pt bs (fold.drop zi) [] [] d2).n,
              some (scanBatch pt bs (fold.drop zi) [] [] d2).shp,
              some (scanBatch pt bs (fold.drop zi) [] [] d2).tmp, cf2, tc2, cs,
              (scanBatch pt bs (fold.drop zi) [] [] d2).disk⟩) := by
        rw [next_def, hs2, hasNext_refill pt fold bs zi zl shpl tf cf2 tc2 cs d2
          hzlc hzi0 hcases, hr]
        rfl
      have hempty : (fold.drop zi).flatMap (archShp pt) = [] := by
        rcases hstop with hn | hb
        · rw [hr] at hshp
          rw [hn, List.take_length] at hshp
          exact hshp.symm
        · rw [hr] at hb
          simp at hb
          omega
      constructor
      · rw [hnx]
      · rcases hcases with h | h <;> subst h <;> simp [remaining, hempty]
    | cons z zs =>
      right
      have hnx : next (⟨pt, fold, bs, zl, zi, shpl, tf, cf, tc, cs, dk⟩ : SL)
          = (some z, ⟨pt, fold, bs, some fold,
              zi + (scanBatch pt bs (fold.drop zi) [] [] d2).n,
              some zs,
              some (scanBatch pt bs (fold.drop zi) [] [] d2).tmp, cf2, tc2, some z,
              (scanBatch pt bs (fold.drop zi) [] [] d2).disk⟩) := by
        rw [next_def, hs2, hasNext_refill pt fold bs zi zl shpl tf cf2 tc2 cs d2
          hzlc hzi0 hcases, hr]
        rfl
      refine ⟨z, by rw [hnx], ?_, ?_, by rw [hnx]⟩
      · rw [hnx]
        have hsplit := flatMap_drop_split (archShp pt) fold zi
          (scanBatch pt bs (fold.drop zi) [] [] d2).n
        rw [hr] at hshp
        simp only [List.nil_append] at hshp
        rcases hcases with h | h <;> subst h <;>
          simp [remaining, hsplit, ← hshp]
      · rw [hnx]
        refine ⟨?_, Or.inl rfl⟩
        show zi + (scanBatch pt bs (fold.drop zi) [] [] d2).n ≤ fold.length
        have := List.length_drop zi fold
        omega
  rcases hzl with hz | ⟨hz, hzi, hshpn⟩
  · subst hz
    cases hshpl : shpl with
    | none =>
      subst hshpl
      exact hrefill (Or.inl rfl) (Or.inl rfl)
    | some l =>
      cases l with
      | nil =>
        subst hshpl
        exact hrefill (Or.inr rfl) (Or.inl rfl)
      | cons x xs =>
        subst hshpl
        right
        have hnx : next (⟨pt, fold, bs, some fold, zi, some (x :: xs), tf, cf, tc, cs, dk⟩ : SL)
            = (some x, ⟨pt, fold, bs, some fold, zi, some xs, tf, cf2, tc2, some x, d2⟩) := by
          rw [next_def, hs2, hasNext_pop pt fold bs zi x xs tf cf2 tc2 cs d2 hzi0]
        refine ⟨x, by rw [hnx], ?_, ?_, by rw [hnx]⟩
        · rw [hnx]
          simp [remaining]
        · rw [hnx]
          exact ⟨hle, Or.inl rfl⟩
  · subst hz
    subst hzi
    subst hshpn
    exact hrefill (Or.inl rfl) (Or.inr ⟨rfl, rfl⟩)

theorem drain_remaining :
    ∀ (fuel : Nat) (s : SL), Aligned s → 1 ≤ s.batchSize →
      (remaining s).length < fuel → drain fuel s = remaining s := by
  intro fuel
  induction fuel with
  | zero => intro s _ _ h; omega
  | succ k ih =>
    intro s hA hbs hlen
    rcases next_yield_step s hA hbs with ⟨h1, h2⟩ | ⟨x, h1, h2, h3, h4⟩
    · cases hn : next s with
      | mk o s2 =>
        rw [hn] at h1
        dsimp only at h1
        subst h1
        rw [h2]
        simp [drain, hn]
    · cases hn : next s with
      | mk o s2 =>
        rw [hn] at h1 h2 h3 h4
        dsimp only at h1 h2 h3 h4
        subst h1
        have hstep : drain (k + 1) s = x :: drain k s2 := by simp [drain, hn]
        have hlen2 : (remaining s2).length < k := by
          have := congrArg List.length h2
          simp at this
          omega
        rw [hstep, h2, ih s2 h3 (h4 ▸ hbs) hlen2]

/-- Claim C5: for every archive collection, pattern and batch size ≥ 1,
the sequence of datasets yielded by repeatedly calling `next` on a fresh
extractor (with enough fuel) is exactly the full archive-ordered list of
matching shapefiles — which is what an unbounded batch size yields — so
batching never changes membership or order. -/
theorem drain_eq_spec_yield (pat : String → Bool) (folder : List Archive) (bs fuel : Nat)
    (hbs : 1 ≤ bs) (hfuel : (specAllDatasets pat folder).length < fuel) :
    drain fuel (mkShapefileList pat folder bs) = specAllDatasets pat folder := by
  have hA : Aligned (mkShapefileList pat folder bs) :=
    ⟨Nat.zero_le _, Or.inr ⟨rfl, rfl, rfl⟩⟩
  have hrem : remaining (mkShapefileList pat folder bs) = specAllDatasets pat folder := by
    simp [remaining, mkShapefileList, specAllDatasets]
  rw [← hrem] at hfuel ⊢
  exact drain_remaining fuel _ hA hbs hfuel

/-- Witness for C5: batch size 1 over three archives (one corrupt)
yields exactly the spec-level sequence. -/
theorem drain_eq_spec_yield_witness :
    drain 10 (mkShapefileList (fun _ => true)
        [⟨true, ["a.shp", "x.prj", "b.shp"]⟩, ⟨false, ["c.shp"]⟩, ⟨true, ["d.shp"]⟩] 1)
      = specAllDatasets (fun _ => true)
        [⟨true, ["a.shp", "x.prj", "b.shp"]⟩, ⟨false, ["c.shp"]⟩, ⟨true, ["d.shp"]⟩] :=
  drain_eq_spec_yield (fun _ => true)
    [⟨true, ["a.shp", "x.prj", "b.shp"]⟩, ⟨false, ["c.shp"]⟩, ⟨true, ["d.shp"]⟩]
    1 10 (by decide) (by decide)

end Canvec
